import Mathlib

/-!
Verification development for the Smart Course Recommender System.

The repository's matching and ranking engine (TF-IDF text encoding, cosine
similarity, preference filtering with relaxation, feedback adjustment and
deterministic ranking) lives in a Python backend that is not part of the
visible source tree; the visible sources are the database schema
(`courses`, `feedback` with a UNIQUE (user_id, course_id) constraint), the
React frontend (preference form, results page with upvote/downvote calling
`upsert` on the feedback table), and the README describing the engine.
The engine itself is therefore modelled here from the specification,
component by component, and the specified properties are proved against
that model.
-/

namespace CourseRec

/-- Skill level enum, values from the preference form and catalog rows. -/
inductive SkillLevel
| beginner
| intermediate
| advanced
deriving DecidableEq, Repr

/-- Pricing of a course: the catalog's `type` column is Free or Paid. -/
inductive Pricing
| free
| paid
deriving DecidableEq, Repr

/-- Requested course type from the form: Free, Paid or Both. -/
inductive PricingPref
| free
| paid
| both
deriving DecidableEq, Repr

/-- Duration bucket: Short Term (1-6 weeks) or Long Term (6+ weeks). -/
inductive DurationBucket
| short
| long
deriving DecidableEq, Repr

/-- Catalog entry, mirroring the `courses` table (uuid modelled by `Nat`). -/
structure Course where
  id : Nat
  title : String
  descr : String
  platform : String
  duration : String
  skillLevel : SkillLevel
  pricing : Pricing
  category : String
  url : String
deriving DecidableEq, Repr

/-- Transient preference query built from the recommendation form. -/
structure PrefQuery where
  category : String
  skillLevel : SkillLevel
  durationPref : DurationBucket
  pricingPref : PricingPref
  freeText : String
deriving DecidableEq, Repr

/-- Splits a character list into words on spaces, dropping empty pieces. -/
def wordsAux : List Char → List Char → List (List Char)
| [], acc => if acc = [] then [] else [acc.reverse]
| c :: rest, acc =>
  if c = ' ' then
    (if acc = [] then wordsAux rest [] else acc.reverse :: wordsAux rest [])
  else wordsAux rest (c :: acc)

/-- Modelled from the spec: the Text Encoder's tokenizer (backend, not in
the visible sources) splits on word boundaries and case-folds. -/
def rawWords (s : String) : List String :=
  (wordsAux s.data []).map (fun w => String.mk (w.map Char.toLower))

/-- Modelled from the spec: the small stop-word set dropped by the
tokenizer of the missing backend encoder. -/
def stopWords : List String :=
  ["a", "an", "and", "the", "of", "to", "in", "for", "on", "with", "is", "are"]

/-- Modelled from the spec: tokenization = split, case-fold, drop stop
words (backend Text Encoder, not in the visible sources). -/
def tokenize (s : String) : List String :=
  (rawWords s).filter (fun t => decide (¬ t ∈ stopWords))

/-- Numeric value of a decimal digit character, if it is one. -/
def digitVal? (c : Char) : Option Nat :=
  if c.isDigit then some (c.toNat - 48) else none

/-- Reads a word made only of decimal digits as a number. -/
def natOfDigitsAux : List Char → Nat → Option Nat
| [], acc => some acc
| c :: cs, acc =>
  match digitVal? c with
  | some d => natOfDigitsAux cs (acc * 10 + d)
  | none => none

/-- Reads a non-empty all-digit word as a number. -/
def natOfWord? : List Char → Option Nat
| [] => none
| cs => natOfDigitsAux cs 0

/-- Modelled from the spec: the backend (not in the visible sources)
parses a course's free-text duration such as "6 weeks" into its leading
number of weeks. -/
def parseWeeks (s : String) : Option Nat :=
  match wordsAux s.data [] with
  | [] => none
  | w :: _ => natOfWord? w

/-- Modelled from the spec: at most 6 weeks is Short, more is Long. -/
def bucketOfWeeks (w : Nat) : DurationBucket :=
  if w ≤ 6 then DurationBucket.short else DurationBucket.long

/-- Modelled from the spec: duration bucket of a course's free-text
duration; a duration that does not parse is not established Short. -/
def durationBucketOf (s : String) : DurationBucket :=
  match parseWeeks s with
  | some w => bucketOfWeeks w
  | none => DurationBucket.long

/-- Category constraint of the Preference Filter: exact equality. -/
def matchesCategory (q : PrefQuery) (c : Course) : Bool :=
  decide (c.category = q.category)

/-- Skill-level constraint of the Preference Filter: exact equality. -/
def matchesSkill (q : PrefQuery) (c : Course) : Bool :=
  decide (c.skillLevel = q.skillLevel)

/-- Pricing constraint: exact match, except Both admits Free and Paid. -/
def matchesPricing (q : PrefQuery) (c : Course) : Bool :=
  match q.pricingPref with
  | PricingPref.both => true
  | PricingPref.free => decide (c.pricing = Pricing.free)
  | PricingPref.paid => decide (c.pricing = Pricing.paid)

/-- Duration constraint: the course's bucket must match the request. -/
def matchesDuration (q : PrefQuery) (c : Course) : Bool :=
  decide (durationBucketOf c.duration = q.durationPref)

/-- Modelled from the spec: the conjunctive Preference Filter of the
backend engine (not in the visible sources). -/
def conjFilter (catalog : List Course) (q : PrefQuery) : List Course :=
  catalog.filter (fun c =>
    matchesCategory q c && matchesSkill q c && matchesPricing q c && matchesDuration q c)

/-- First relaxation stage: the duration constraint is dropped. -/
def relaxDur (catalog : List Course) (q : PrefQuery) : List Course :=
  catalog.filter (fun c => matchesCategory q c && matchesSkill q c && matchesPricing q c)

/-- Second relaxation stage: duration and pricing are dropped. -/
def relaxDurPricing (catalog : List Course) (q : PrefQuery) : List Course :=
  catalog.filter (fun c => matchesCategory q c && matchesSkill q c)

/-- Last relaxation stage: only the category constraint remains. -/
def categoryOnly (catalog : List Course) (q : PrefQuery) : List Course :=
  catalog.filter (fun c => matchesCategory q c)

/-- Modelled from the spec: filter with relaxation in the fixed priority
order duration, then pricing, then skill level, keeping category always,
stopping at the first non-empty stage (backend engine, not in the visible
sources). -/
def filterWithRelaxation (catalog : List Course) (q : PrefQuery) : List Course :=
  if conjFilter catalog q ≠ [] then conjFilter catalog q
  else if relaxDur catalog q ≠ [] then relaxDur catalog q
  else if relaxDurPricing catalog q ≠ [] then relaxDurPricing catalog q
  else categoryOnly catalog q

/-- Dot product of two term-weight vectors. -/
def dot (a b : List ℝ) : ℝ :=
  (List.zipWith (fun x y => x * y) a b).sum

/-- Euclidean magnitude of a term-weight vector. -/
noncomputable def magnitude (v : List ℝ) : ℝ :=
  Real.sqrt (dot v v)

/-- Clamp a real number to the interval [0, 1]. -/
def clampR (x : ℝ) : ℝ := min 1 (max 0 x)

open scoped Classical in
/-- Modelled from the spec: the Similarity Scorer of the backend engine
(not in the visible sources): cosine of the angle between the vectors,
clamped to [0, 1], defined as 0 when either magnitude is zero. -/
noncomputable def cosineSim (a b : List ℝ) : ℝ :=
  if magnitude a = 0 ∨ magnitude b = 0 then 0
  else clampR (dot a b / (magnitude a * magnitude b))

/-- Modelled from the spec: vocabulary of the Text Encoder, built from
all course descriptions of the catalog. -/
def vocab (catalog : List Course) : List String :=
  ((catalog.map (fun c => tokenize c.descr)).flatten).dedup

/-- Number of catalog documents whose tokens contain a term. -/
def docCount (catalog : List Course) (t : String) : Nat :=
  (catalog.filter (fun c => (tokenize c.descr).contains t)).length

/-- Modelled from the spec: smoothed inverse-document-frequency factor of
the backend encoder (rarer terms across the catalog weigh more). -/
noncomputable def idf (catalog : List Course) (t : String) : ℝ :=
  Real.log (((catalog.length : ℝ) + 1) / ((docCount catalog t : ℝ) + 1)) + 1

/-- Modelled from the spec: encode a token list over the catalog's
vocabulary; each entry is term frequency times the idf factor, and
out-of-vocabulary terms contribute nothing. -/
noncomputable def encode (catalog : List Course) (tokens : List String) : List ℝ :=
  (vocab catalog).map (fun t => ((tokens.count t : ℝ)) * idf catalog t)

/-- Query vector of a free-text query over the catalog's vocabulary. -/
noncomputable def queryVector (catalog : List Course) (q : String) : List ℝ :=
  encode catalog (tokenize q)

/-- Course vector of a catalog entry over the catalog's vocabulary. -/
noncomputable def courseVector (catalog : List Course) (c : Course) : List ℝ :=
  encode catalog (tokenize c.descr)

/-- Rating values stored by the feedback table: +1 upvote, -1 downvote. -/
inductive Rating
| up
| down
deriving DecidableEq, Repr

/-- Signed value of a rating, as stored in the `rating` column. -/
def ratingVal : Rating → ℚ
| Rating.up => 1
| Rating.down => -1

/-- A row of the `feedback` table (uuids modelled by `Nat`). -/
structure FeedbackRecord where
  userId : Nat
  courseId : Nat
  rating : Rating
deriving DecidableEq, Repr

/-- Key of a feedback row: the (user, course) pair the store keeps
unique. -/
def feedKey (rec : FeedbackRecord) : Nat × Nat :=
  (rec.userId, rec.courseId)

/-- At most one live feedback record per (user, course) pair: the
uniqueness invariant enforced by the store's UNIQUE constraint. -/
def PairUnique (store : List FeedbackRecord) : Prop :=
  store.Pairwise (fun a b => feedKey a ≠ feedKey b)

/-- Boolean test that a feedback row is the live row of a given pair. -/
def keyTest (u c : Nat) (rec : FeedbackRecord) : Bool :=
  decide (rec.userId = u ∧ rec.courseId = c)

/-- Upsert of a feedback row: replaces any existing record for the
(user, course) pair, otherwise inserts a new one; this is the store's
`upsert` with conflict target (user_id, course_id) called by the
results page. -/
def upsertFeedback (store : List FeedbackRecord) (u c : Nat) (r : Rating) :
    List FeedbackRecord :=
  if store.any (keyTest u c) then
    store.map (fun rec => if keyTest u c rec then ⟨u, c, r⟩ else rec)
  else store ++ [⟨u, c, r⟩]

/-- Live records of a (user, course) pair in the store. -/
def liveFeedback (store : List FeedbackRecord) (u c : Nat) : List FeedbackRecord :=
  store.filter (keyTest u c)

/-- Category of the catalog course carrying a given course id. -/
def categoryOfCourseId (catalog : List Course) (cid : Nat) : Option String :=
  (catalog.find? (fun c => decide (c.id = cid))).map (fun c => c.category)

/-- Cap of the feedback adjustment range: 0.2. -/
def capFb : ℚ := 1/5

/-- Modelled from the spec: per category-level vote increment of the
backend Feedback Adjuster (capped); the spec fixes only that it is a
positive increment, so 0.05 is used. -/
def stepFb : ℚ := 1/20

/-- Clamp a rational to the feedback adjustment range [-0.2, 0.2]. -/
def clampFb (x : ℚ) : ℚ := min capFb (max (-capFb) x)

/-- The requesting user's rows of the feedback store. -/
def userRecords (store : List FeedbackRecord) (u : Nat) : List FeedbackRecord :=
  store.filter (fun rec => decide (rec.userId = u))

/-- The user's rating of exactly the candidate course, if any. -/
def exactRecord? (store : List FeedbackRecord) (u cid : Nat) : Option FeedbackRecord :=
  (userRecords store u).find? (fun rec => decide (rec.courseId = cid))

/-- Number of the user's ratings of the given polarity on courses of the
given category. -/
def categoryVotes (catalog : List Course) (store : List FeedbackRecord)
    (u : Nat) (cat : String) (r : Rating) : Nat :=
  ((userRecords store u).filter (fun rec =>
    decide (rec.rating = r ∧ categoryOfCourseId catalog rec.courseId = some cat))).length

/-- Modelled from the spec: the Feedback Adjuster of the backend engine
(not in the visible sources). An exact rating on the candidate course
dominates and yields plus or minus 0.2 outright; otherwise upvotes and
downvotes on courses of the same category shift the score by a capped
increment; no history yields 0. -/
def feedbackAdjustment (catalog : List Course) (store : List FeedbackRecord)
    (u : Nat) (course : Course) : ℚ :=
  match exactRecord? store u course.id with
  | some rec => ratingVal rec.rating * capFb
  | none =>
    clampFb (stepFb *
      ((categoryVotes catalog store u course.category Rating.up : ℚ) -
        (categoryVotes catalog store u course.category Rating.down : ℚ)))

/-- Clamp a rational score to the interval [0, 1]. -/
def clampQ (x : ℚ) : ℚ := min 1 (max 0 x)

/-- Weight of the lexical similarity component. -/
def wSim : ℚ := 7/10

/-- Weight of the exact category match component. -/
def wPref : ℚ := 3/10

/-- Category preference match: 1 exactly when the course's category
equals the requested category, 0 otherwise. -/
def catMatch (q : PrefQuery) (c : Course) : ℚ :=
  if c.category = q.category then 1 else 0

/-- Adjustment dispatch: anonymous callers get no feedback adjustment. -/
def adjustOf (catalog : List Course) (store : List FeedbackRecord)
    (u : Option Nat) (c : Course) : ℚ :=
  match u with
  | none => 0
  | some uid => feedbackAdjustment catalog store uid c

/-- Modelled from the spec: final score of the backend Ranker (not in
the visible sources): clamp(similarity times 0.7 plus category match
times 0.3 plus feedback adjustment, 0, 1). The similarity values the
Scorer delivers are taken as an input `simOf`. -/
def finalScore (catalog : List Course) (store : List FeedbackRecord)
    (u : Option Nat) (q : PrefQuery) (simOf : Course → ℚ) (c : Course) : ℚ :=
  clampQ (simOf c * wSim + catMatch q c * wPref + adjustOf catalog store u c)

/-- A scored candidate: the course, its insertion index within the
admissible subset, and its final score. -/
structure Scored where
  course : Course
  idx : Nat
  score : ℚ
deriving DecidableEq, Repr

/-- Tie-break component (a): exact skill-level matches come first. -/
def skillRank (q : PrefQuery) (c : Course) : Nat :=
  if c.skillLevel = q.skillLevel then 0 else 1

/-- Tie-break component (b): the requested duration bucket is preferred. -/
def durRank (q : PrefQuery) (c : Course) : Nat :=
  if durationBucketOf c.duration = q.durationPref then 0 else 1

/-- Modelled from the spec: lexicographic sort key of the backend Ranker:
score descending, then exact skill-level match, then preferred duration
bucket, then catalog insertion order as the fully deterministic last
tie-break. -/
def rankKey (q : PrefQuery) (a : Scored) : Lex (ℚ × Lex (ℕ × Lex (ℕ × ℕ))) :=
  toLex (-a.score, toLex (skillRank q a.course, toLex (durRank q a.course, a.idx)))

/-- Ordering relation of the Ranker: comparison of the sort keys. -/
def rankLE (q : PrefQuery) (a b : Scored) : Prop :=
  rankKey q a ≤ rankKey q b

instance (q : PrefQuery) : DecidableRel (rankLE q) := fun a b =>
  inferInstanceAs (Decidable (rankKey q a ≤ rankKey q b))

instance (q : PrefQuery) : IsTotal Scored (rankLE q) :=
  ⟨fun a b => le_total (rankKey q a) (rankKey q b)⟩

instance (q : PrefQuery) : IsTrans Scored (rankLE q) :=
  ⟨fun _ _ _ h h2 => le_trans h h2⟩

/-- Scored candidates: the admissible subset after relaxation, each
course tagged with its insertion index and final score. -/
def scoredCandidates (catalog : List Course) (store : List FeedbackRecord)
    (u : Option Nat) (q : PrefQuery) (simOf : Course → ℚ) : List Scored :=
  ((filterWithRelaxation catalog q).enum).map
    (fun p => ⟨p.2, p.1, finalScore catalog store u q simOf p.2⟩)

/-- Top-K truncation bound of the Ranker (spec default). -/
def topK : Nat := 10

/-- Sorted, truncated candidate list of the Ranker. -/
def rankedCandidates (catalog : List Course) (store : List FeedbackRecord)
    (u : Option Nat) (q : PrefQuery) (simOf : Course → ℚ) : List Scored :=
  (List.insertionSort (rankLE q) (scoredCandidates catalog store u q simOf)).take topK

/-- One row of the RankedResult: 1-indexed rank, course and score. -/
structure RankedEntry where
  rank : Nat
  course : Course
  score : ℚ
deriving DecidableEq, Repr

/-- Modelled from the spec: the full Ranker output (backend engine, not
in the visible sources): sort, truncate to top-K, attach ranks 1..K. -/
def recommend (catalog : List Course) (store : List FeedbackRecord)
    (u : Option Nat) (q : PrefQuery) (simOf : Course → ℚ) : List RankedEntry :=
  (rankedCandidates catalog store u q simOf).enum.map
    (fun p => ⟨p.1 + 1, p.2.course, p.2.score⟩)

/-- Sample catalog row mirroring the seeded "Web Development Fundamentals". -/
def webDevCourse : Course :=
  ⟨0, "Web Development Fundamentals", "learn html css and javascript",
    "FreeCodeCamp", "10 weeks", SkillLevel.beginner, Pricing.free, "Web Dev", "u1"⟩

/-- Sample catalog row mirroring the seeded "Blockchain Development". -/
def blockchainCourse : Course :=
  ⟨1, "Blockchain Development", "learn blockchain technology",
    "Ethereum", "10 weeks", SkillLevel.advanced, Pricing.free, "Blockchain", "u2"⟩

/-- Sample catalog row mirroring "Introduction to Machine Learning". -/
def mlCourse : Course :=
  ⟨2, "Introduction to Machine Learning", "learn the fundamentals of machine learning",
    "Coursera", "6 weeks", SkillLevel.beginner, Pricing.free, "AI", "u3"⟩

/-- Sample request for the Blockchain relaxation scenario. -/
def blockchainQuery : PrefQuery :=
  ⟨"Blockchain", SkillLevel.beginner, DurationBucket.short, PricingPref.free, ""⟩

/-- Sample request for the Web Dev downvote scenario. -/
def webDevQuery : PrefQuery :=
  ⟨"Web Dev", SkillLevel.beginner, DurationBucket.short, PricingPref.free, ""⟩

lemma mem_categoryOnly_category {catalog : List Course} {q : PrefQuery} {c : Course}
    (h : c ∈ categoryOnly catalog q) : c.category = q.category := by
  have h2 := (List.mem_filter.1 h).2
  simpa [matchesCategory] using h2

lemma mem_relaxDurPricing_category {catalog : List Course} {q : PrefQuery} {c : Course}
    (h : c ∈ relaxDurPricing catalog q) : c.category = q.category := by
  have h2 := (List.mem_filter.1 h).2
  simp only [Bool.and_eq_true, matchesCategory, decide_eq_true_eq] at h2
  tauto

lemma mem_relaxDur_category {catalog : List Course} {q : PrefQuery} {c : Course}
    (h : c ∈ relaxDur catalog q) : c.category = q.category := by
  have h2 := (List.mem_filter.1 h).2
  simp only [Bool.and_eq_true, matchesCategory, decide_eq_true_eq] at h2
  tauto

lemma mem_conjFilter_category {catalog : List Course} {q : PrefQuery} {c : Course}
    (h : c ∈ conjFilter catalog q) : c.category = q.category := by
  have h2 := (List.mem_filter.1 h).2
  simp only [Bool.and_eq_true, matchesCategory, decide_eq_true_eq] at h2
  tauto

lemma mem_filterWithRelaxation_category {catalog : List Course} {q : PrefQuery} {c : Course}
    (h : c ∈ filterWithRelaxation catalog q) : c.category = q.category := by
  unfold filterWithRelaxation at h
  split_ifs at h
  · exact mem_conjFilter_category h
  · exact mem_relaxDur_category h
  · exact mem_relaxDurPricing_category h
  · exact mem_categoryOnly_category h

/-- Claim C1: for every preference query whose requested category has at
least one course in the catalog, the filter with relaxation returns a
non-empty admissible subset; the category constraint is never dropped,
and the stages (full conjunction, duration dropped, duration and pricing
dropped, category only) are tried in that fixed order, stopping at the
first non-empty one. -/
theorem claim_C1_relaxation (catalog : List Course) (q : PrefQuery)
    (h : ∃ c ∈ catalog, c.category = q.category) :
    filterWithRelaxation catalog q ≠ [] ∧
    (∀ c ∈ filterWithRelaxation catalog q, c.category = q.category) ∧
    (conjFilter catalog q ≠ [] → filterWithRelaxation catalog q = conjFilter catalog q) ∧
    (conjFilter catalog q = [] → relaxDur catalog q ≠ [] →
      filterWithRelaxation catalog q = relaxDur catalog q) ∧
    (conjFilter catalog q = [] → relaxDur catalog q = [] →
      relaxDurPricing catalog q ≠ [] →
      filterWithRelaxation catalog q = relaxDurPricing catalog q) ∧
    (conjFilter catalog q = [] → relaxDur catalog q = [] →
      relaxDurPricing catalog q = [] →
      filterWithRelaxation catalog q = categoryOnly catalog q) := by
  obtain ⟨c, hcmem, hccat⟩ := h
  have hmem3 : c ∈ categoryOnly catalog q :=
    List.mem_filter.2 ⟨hcmem, by simp [matchesCategory, hccat]⟩
  refine ⟨?_, fun c hc => mem_filterWithRelaxation_category hc, ?_, ?_, ?_, ?_⟩
  · unfold filterWithRelaxation
    split_ifs with h0 h1 h2
    · exact h0
    · exact h1
    · exact h2
    · exact List.ne_nil_of_mem hmem3
  · intro h0
    simp [filterWithRelaxation, h0]
  · intro h0 h1
    simp [filterWithRelaxation, h0, h1]
  · intro h0 h1 h2
    simp [filterWithRelaxation, h0, h1, h2]
  · intro h0 h1 h2
    simp [filterWithRelaxation, h0, h1, h2]

/-- Witness for claim C1: the Blockchain scenario of the spec; the
catalog's only Blockchain course is Advanced, Free and Long while the
request asks Beginner, Short and Free, and relaxation still surfaces it. -/
theorem claim_C1_witness :
    (∃ c ∈ [blockchainCourse], c.category = blockchainQuery.category) ∧
    filterWithRelaxation [blockchainCourse] blockchainQuery ≠ [] ∧
    filterWithRelaxation [blockchainCourse] blockchainQuery = [blockchainCourse] := by
  refine ⟨⟨blockchainCourse, by simp, rfl⟩, ?_, by decide⟩
  exact (claim_C1_relaxation [blockchainCourse] blockchainQuery
    ⟨blockchainCourse, by simp, rfl⟩).1

/-- Claim C10: the duration bucket of a course is computed by parsing its
free-text duration into a number of weeks, classified Short exactly when
the number of weeks is at most 6, Long otherwise. -/
theorem claim_C10_duration_bucket (c : Course) (w : Nat)
    (h : parseWeeks c.duration = some w) :
    (durationBucketOf c.duration = DurationBucket.short ↔ w ≤ 6) ∧
    (durationBucketOf c.duration = DurationBucket.long ↔ ¬ w ≤ 6) := by
  unfold durationBucketOf bucketOfWeeks
  rw [h]
  dsimp only
  split_ifs with hw <;> simp [hw]

/-- Witness for claim C10: the seeded 6-week course parses to 6 weeks
and is classified Short. -/
theorem claim_C10_witness :
    parseWeeks mlCourse.duration = some 6 ∧
    (durationBucketOf mlCourse.duration = DurationBucket.short ↔ 6 ≤ 6) :=
  ⟨by decide, (claim_C10_duration_bucket mlCourse 6 (by decide)).1⟩

lemma eq_of_pairwise_key {α β : Type _} (K : α → β) :
    ∀ {l : List α} {a b : α}, l.Pairwise (fun x y => K x ≠ K y) →
      a ∈ l → b ∈ l → K a = K b → a = b := by
  intro l
  induction l with
  | nil => intro a b _ ha; cases ha
  | cons x t ih =>
    intro a b hp ha hb hk
    rcases List.pairwise_cons.1 hp with ⟨hx, ht⟩
    rcases List.mem_cons.1 ha with ha1 | ha2 <;> rcases List.mem_cons.1 hb with hb1 | hb2
    · exact ha1.trans hb1.symm
    · exact absurd hk (ha1 ▸ hx b hb2)
    · exact absurd hk.symm (hb1 ▸ hx a ha2)
    · exact ih ht ha2 hb2 hk

lemma clampFb_bounds (x : ℚ) : -(1/5) ≤ clampFb x ∧ clampFb x ≤ 1/5 := by
  unfold clampFb capFb
  constructor
  · exact le_min (by norm_num) (le_max_left _ _)
  · exact min_le_left _ _

lemma mem_userRecords {store : List FeedbackRecord} {u : Nat} {rec : FeedbackRecord}
    (h : rec ∈ userRecords store u) : rec ∈ store ∧ rec.userId = u := by
  have h2 := List.mem_filter.1 h
  exact ⟨h2.1, by simpa using h2.2⟩

lemma userRecords_pairwise {store : List FeedbackRecord} {u : Nat}
    (h : PairUnique store) :
    (userRecords store u).Pairwise (fun a b => feedKey a ≠ feedKey b) :=
  List.Pairwise.sublist (List.filter_sublist store) h

lemma exactRecord_of_mem {store : List FeedbackRecord} {u cid : Nat} {r : Rating}
    (hu : PairUnique store) (hmem : (⟨u, cid, r⟩ : FeedbackRecord) ∈ store) :
    exactRecord? store u cid = some ⟨u, cid, r⟩ := by
  have hmemu : (⟨u, cid, r⟩ : FeedbackRecord) ∈ userRecords store u :=
    List.mem_filter.2 ⟨hmem, by simp⟩
  unfold exactRecord?
  cases hf : (userRecords store u).find? (fun rec => decide (rec.courseId = cid)) with
  | none =>
    have := List.find?_eq_none.1 hf _ hmemu
    simp at this
  | some rec0 =>
    have hp := List.find?_some hf
    have hmem0 := List.mem_of_find?_eq_some hf
    have hcid : rec0.courseId = cid := by simpa using hp
    have huid : rec0.userId = u := (mem_userRecords hmem0).2
    have hkey : feedKey rec0 = feedKey (⟨u, cid, r⟩ : FeedbackRecord) := by
      simp [feedKey, hcid, huid]
    have := eq_of_pairwise_key feedKey (userRecords_pairwise hu) hmem0 hmemu hkey
    rw [this]

/-- Claim C5: the Feedback Adjuster's output always lies in [-0.2, 0.2];
an exact rating of the candidate course dominates, giving exactly +0.2
for an upvote and -0.2 for a downvote; and a user with no feedback
history receives adjustment 0. -/
theorem claim_C5_feedback_adjuster (catalog : List Course)
    (store : List FeedbackRecord) (u : Nat) (c : Course) :
    (-(1/5) ≤ feedbackAdjustment catalog store u c ∧
      feedbackAdjustment catalog store u c ≤ 1/5) ∧
    (PairUnique store → ∀ r : Rating, (⟨u, c.id, r⟩ : FeedbackRecord) ∈ store →
      (r = Rating.up → feedbackAdjustment catalog store u c = 1/5) ∧
      (r = Rating.down → feedbackAdjustment catalog store u c = -(1/5))) ∧
    (userRecords store u = [] → feedbackAdjustment catalog store u c = 0) := by
  refine ⟨?_, ?_, ?_⟩
  · unfold feedbackAdjustment
    cases hf : exactRecord? store u c.id with
    | none => exact clampFb_bounds _
    | some rec =>
      cases hr : rec.rating <;> simp [ratingVal, hr, capFb]
  · intro hu r hmem
    have hx := exactRecord_of_mem hu hmem
    unfold feedbackAdjustment
    rw [hx]
    cases r <;> simp [ratingVal, capFb]
  · intro hempty
    unfold feedbackAdjustment exactRecord? categoryVotes
    rw [hempty]
    simp [clampFb, capFb, stepFb]

/-- Witness for claim C5: with a single upvote of the Web Dev course by
user 1, the adjustment for that exact course is +0.2, and an empty
history yields 0. -/
theorem claim_C5_witness :
    PairUnique [(⟨1, 0, Rating.up⟩ : FeedbackRecord)] ∧
    feedbackAdjustment [webDevCourse] [⟨1, 0, Rating.up⟩] 1 webDevCourse = 1/5 ∧
    feedbackAdjustment [webDevCourse] [] 1 webDevCourse = 0 := by
  have hu : PairUnique [(⟨1, 0, Rating.up⟩ : FeedbackRecord)] := by
    simp [PairUnique]
  refine ⟨hu, ?_, ?_⟩
  · exact ((claim_C5_feedback_adjuster [webDevCourse] [⟨1, 0, Rating.up⟩] 1
      webDevCourse).2.1 hu Rating.up (by simp [webDevCourse])).1 rfl
  · exact (claim_C5_feedback_adjuster [webDevCourse] [] 1 webDevCourse).2.2 rfl

lemma keyTest_iff {u c : Nat} {rec : FeedbackRecord} :
    keyTest u c rec = true ↔ feedKey rec = (u, c) := by
  simp [keyTest, feedKey, Prod.ext_iff]

lemma feedKey_replace {u c : Nat} {r : Rating} (rec : FeedbackRecord) :
    feedKey (if keyTest u c rec then (⟨u, c, r⟩ : FeedbackRecord) else rec)
      = feedKey rec := by
  split_ifs with h
  · exact (keyTest_iff.1 h).symm
  · rfl

lemma upsert_pairUnique {store : List FeedbackRecord} {u c : Nat} {r : Rating}
    (h : PairUnique store) : PairUnique (upsertFeedback store u c r) := by
  unfold upsertFeedback
  split_ifs with hany
  · unfold PairUnique
    rw [List.pairwise_map]
    refine h.imp ?_
    intro a b hab
    rw [feedKey_replace, feedKey_replace]
    exact hab
  · unfold PairUnique
    rw [List.pairwise_append]
    refine ⟨h, List.pairwise_singleton _ _, ?_⟩
    intro a ha b hb
    have hb2 : b = (⟨u, c, r⟩ : FeedbackRecord) := by simpa using hb
    have hanyf : store.any (keyTest u c) = false := Bool.of_not_eq_true hany
    have hna := List.any_eq_false.1 hanyf a ha
    intro hk
    exact hna (keyTest_iff.2 (by rw [hb2] at hk; exact hk))

lemma filter_map_replace {u c : Nat} {r : Rating} :
    ∀ (store : List FeedbackRecord), PairUnique store →
      ((store.map (fun rec => if keyTest u c rec then (⟨u, c, r⟩ : FeedbackRecord)
          else rec)).filter (keyTest u c))
        = if store.any (keyTest u c) then [(⟨u, c, r⟩ : FeedbackRecord)] else [] := by
  intro store
  induction store with
  | nil => intro _; simp
  | cons rec rest ih =>
    intro hp
    rcases List.pairwise_cons.1 hp with ⟨hrel, hrest⟩
    by_cases hk : keyTest u c rec = true
    · have hnew : keyTest u c (⟨u, c, r⟩ : FeedbackRecord) = true := by
        simp [keyTest]
      have hnone : rest.any (keyTest u c) = false := by
        rw [List.any_eq_false]
        intro x hx hkx
        exact hrel x hx ((keyTest_iff.1 hk).trans (keyTest_iff.1 hkx).symm)
      have hrestnil : ((rest.map (fun rec => if keyTest u c rec then
          (⟨u, c, r⟩ : FeedbackRecord) else rec)).filter (keyTest u c)) = [] := by
        rw [ih hrest, hnone]
        rfl
      simp only [List.map_cons, List.filter_cons, hk, if_pos, hnew, if_true]
      rw [hrestnil]
      simp [List.any_cons, hk]
    · have hkb : keyTest u c rec = false := Bool.of_not_eq_true hk
      simp only [List.map_cons, List.filter_cons, hk, if_neg, if_false, hkb]
      rw [ih hrest]
      simp [List.any_cons, hkb]

lemma liveFeedback_upsert {store : List FeedbackRecord} {u c : Nat} {r : Rating}
    (h : PairUnique store) :
    liveFeedback (upsertFeedback store u c r) u c = [(⟨u, c, r⟩ : FeedbackRecord)] := by
  unfold liveFeedback upsertFeedback
  split_ifs with hany
  · rw [filter_map_replace store h, hany]
    rfl
  · have hanyf : store.any (keyTest u c) = false := Bool.of_not_eq_true hany
    rw [List.filter_append]
    have h1 : store.filter (keyTest u c) = [] :=
      List.filter_eq_nil_iff.2 (List.any_eq_false.1 hanyf)
    have h2 : ([(⟨u, c, r⟩ : FeedbackRecord)]).filter (keyTest u c)
        = [(⟨u, c, r⟩ : FeedbackRecord)] := by
      simp [keyTest]
    rw [h1, h2]
    rfl

/-- Claim C6: upserting feedback twice for the same (user, course) pair
leaves exactly one live record for that pair, carrying the later of the
two ratings; and every upsert preserves the at-most-one-record-per-pair
invariant. -/
theorem claim_C6_upsert (store : List FeedbackRecord) (u c : Nat)
    (r1 r2 : Rating) (h : PairUnique store) :
    liveFeedback (upsertFeedback (upsertFeedback store u c r1) u c r2) u c
      = [(⟨u, c, r2⟩ : FeedbackRecord)] ∧
    (∀ (u2 c2 : Nat) (r : Rating), PairUnique (upsertFeedback store u2 c2 r)) := by
  constructor
  · exact liveFeedback_upsert (upsert_pairUnique h)
  · intro u2 c2 r
    exact upsert_pairUnique h

/-- Witness for claim C6: an upvote then a downvote by user 1 on course 0
leave a single live record with the later rating, the downvote. -/
theorem claim_C6_witness :
    PairUnique ([] : List FeedbackRecord) ∧
    liveFeedback (upsertFeedback (upsertFeedback [] 1 0 Rating.up) 1 0 Rating.down) 1 0
      = [(⟨1, 0, Rating.down⟩ : FeedbackRecord)] :=
  ⟨List.Pairwise.nil, (claim_C6_upsert [] 1 0 Rating.up Rating.down List.Pairwise.nil).1⟩

lemma clampQ_bounds (x : ℚ) : 0 ≤ clampQ x ∧ clampQ x ≤ 1 := by
  unfold clampQ
  constructor
  · exact le_min (by norm_num) (le_max_left _ _)
  · exact min_le_left _ _

lemma clampQ_eq_self {x : ℚ} (h0 : 0 ≤ x) (h1 : x ≤ 1) : clampQ x = x := by
  unfold clampQ
  rw [max_eq_right h0, min_eq_right h1]

lemma mem_enumFrom_snd {α : Type _} :
    ∀ {l : List α} {n : Nat} {p : Nat × α}, p ∈ l.enumFrom n → p.2 ∈ l := by
  intro l
  induction l with
  | nil => intro n p h; cases h
  | cons a t ih =>
    intro n p h
    rcases List.mem_cons.1 h with h1 | h1
    · rw [h1]; exact List.mem_cons_self _ _
    · exact List.mem_cons.2 (Or.inr (ih h1))

lemma mem_enumFrom_fst_le {α : Type _} :
    ∀ {l : List α} {n : Nat} {p : Nat × α}, p ∈ l.enumFrom n → n ≤ p.1 := by
  intro l
  induction l with
  | nil => intro n p h; cases h
  | cons a t ih =>
    intro n p h
    rcases List.mem_cons.1 h with h1 | h1
    · rw [h1]
    · exact Nat.le_of_succ_le (ih h1)

lemma pairwise_enumFrom_snd {α : Type _} {R : α → α → Prop} :
    ∀ {l : List α} {n : Nat}, l.Pairwise R →
      (l.enumFrom n).Pairwise (fun p q => R p.2 q.2) := by
  intro l
  induction l with
  | nil => intro n _; exact List.Pairwise.nil
  | cons a t ih =>
    intro n h
    rcases List.pairwise_cons.1 h with ⟨ha, ht⟩
    refine List.pairwise_cons.2 ⟨?_, ih ht⟩
    intro q hq
    exact ha q.2 (mem_enumFrom_snd hq)

lemma pairwise_enumFrom_fst_lt {α : Type _} :
    ∀ (l : List α) (n : Nat), (l.enumFrom n).Pairwise (fun p q => p.1 < q.1) := by
  intro l
  induction l with
  | nil => intro n; exact List.Pairwise.nil
  | cons a t ih =>
    intro n
    refine List.pairwise_cons.2 ⟨?_, ih (n + 1)⟩
    intro q hq
    exact Nat.lt_of_succ_le (mem_enumFrom_fst_le hq)

lemma map_enumFrom_fst_succ {α : Type _} :
    ∀ (l : List α) (n : Nat),
      (l.enumFrom n).map (fun p => p.1 + 1) = List.range' (n + 1) l.length := by
  intro l
  induction l with
  | nil => intro n; rfl
  | cons a t ih =>
    intro n
    simp only [List.enumFrom, List.map_cons, List.length_cons, List.range'_succ]
    rw [ih (n + 1)]

lemma rankLE_score {q : PrefQuery} {a b : Scored} (h : rankLE q a b) :
    b.score ≤ a.score := by
  unfold rankLE rankKey at h
  rw [Prod.Lex.le_iff] at h
  rcases h with h | h
  · have := le_of_lt h
    simpa using this
  · have : -a.score = -b.score := h.1
    simp at this
    rw [this]

lemma rankLE_antisymm_on {q : PrefQuery} {a b : Scored}
    (h1 : rankLE q a b) (h2 : rankLE q b a) : a.idx = b.idx := by
  have hk : rankKey q a = rankKey q b := le_antisymm h1 h2
  unfold rankKey at hk
  have h5 := toLex.injective hk
  have h6 := congrArg Prod.snd h5
  have h7 := toLex.injective h6
  have h8 := congrArg Prod.snd h7
  have h9 := toLex.injective h8
  exact congrArg Prod.snd h9

lemma scored_idx_pairwise (catalog : List Course) (store : List FeedbackRecord)
    (u : Option Nat) (q : PrefQuery) (simOf : Course → ℚ) :
    (scoredCandidates catalog store u q simOf).Pairwise (fun a b => a.idx ≠ b.idx) := by
  unfold scoredCandidates List.enum
  rw [List.pairwise_map]
  exact (pairwise_enumFrom_fst_lt _ 0).imp (fun h => Nat.ne_of_lt h)

lemma mem_scored_score {catalog : List Course} {store : List FeedbackRecord}
    {u : Option Nat} {q : PrefQuery} {simOf : Course → ℚ} {s : Scored}
    (h : s ∈ scoredCandidates catalog store u q simOf) :
    ∃ c : Course, s.score = finalScore catalog store u q simOf c := by
  unfold scoredCandidates at h
  rcases List.mem_map.1 h with ⟨p, _, hfp⟩
  exact ⟨p.2, by rw [← hfp]⟩

lemma mem_recommend_scored {catalog : List Course} {store : List FeedbackRecord}
    {u : Option Nat} {q : PrefQuery} {simOf : Course → ℚ} {e : RankedEntry}
    (h : e ∈ recommend catalog store u q simOf) :
    ∃ s ∈ scoredCandidates catalog store u q simOf, e.score = s.score := by
  unfold recommend at h
  rcases List.mem_map.1 h with ⟨p, hp, hfp⟩
  have hmem : p.2 ∈ rankedCandidates catalog store u q simOf :=
    mem_enumFrom_snd hp
  have hmem2 : p.2 ∈ List.insertionSort (rankLE q) (scoredCandidates catalog store u q simOf) :=
    List.take_subset _ _ hmem
  have hmem3 : p.2 ∈ scoredCandidates catalog store u q simOf :=
    (List.perm_insertionSort (rankLE q) _).mem_iff.1 hmem2
  exact ⟨p.2, hmem3, by rw [← hfp]⟩

/-- Claim C2: the Ranker's final score is
clamp(similarity times 0.7 plus categoryPreferenceMatch times 0.3 plus
feedbackAdjustment, 0, 1); categoryPreferenceMatch is 1 exactly when the
course's category equals the requested category and 0 otherwise; and
every returned score lies in [0, 1]. -/
theorem claim_C2_final_score (catalog : List Course) (store : List FeedbackRecord)
    (u : Option Nat) (q : PrefQuery) (simOf : Course → ℚ) (c : Course) :
    finalScore catalog store u q simOf c
      = clampQ (simOf c * (7/10) + catMatch q c * (3/10) + adjustOf catalog store u c) ∧
    (c.category = q.category → catMatch q c = 1) ∧
    (c.category ≠ q.category → catMatch q c = 0) ∧
    (0 ≤ finalScore catalog store u q simOf c ∧
      finalScore catalog store u q simOf c ≤ 1) ∧
    (∀ e ∈ recommend catalog store u q simOf, 0 ≤ e.score ∧ e.score ≤ 1) := by
  refine ⟨rfl, ?_, ?_, clampQ_bounds _, ?_⟩
  · intro h; simp [catMatch, h]
  · intro h; simp [catMatch, h]
  · intro e he
    rcases mem_recommend_scored he with ⟨s, hs, hes⟩
    rcases mem_scored_score hs with ⟨c2, hc2⟩
    rw [hes, hc2]
    exact clampQ_bounds _

/-- Witness for claim C2: a concrete candidate matching the requested
category gets categoryPreferenceMatch 1, and its final score obeys the
clamp formula and the [0, 1] bounds. -/
theorem claim_C2_witness :
    finalScore [webDevCourse] [] none webDevQuery (fun _ => 0) webDevCourse
      = clampQ ((0 : ℚ) * (7/10) + catMatch webDevQuery webDevCourse * (3/10)
          + adjustOf [webDevCourse] [] none webDevCourse) ∧
    catMatch webDevQuery webDevCourse = 1 ∧
    0 ≤ finalScore [webDevCourse] [] none webDevQuery (fun _ => 0) webDevCourse := by
  have h := claim_C2_final_score [webDevCourse] [] none webDevQuery (fun _ => 0) webDevCourse
  exact ⟨h.1, h.2.1 rfl, h.2.2.2.1.1⟩

/-- Claim C4: the Ranker's output has non-increasing scores in rank order,
ranks forming the contiguous 1-indexed sequence 1..K with no gaps or
duplicates, and at most top-K entries. -/
theorem claim_C4_ranked_result (catalog : List Course) (store : List FeedbackRecord)
    (u : Option Nat) (q : PrefQuery) (simOf : Course → ℚ) :
    (recommend catalog store u q simOf).Pairwise (fun a b => b.score ≤ a.score) ∧
    (recommend catalog store u q simOf).map RankedEntry.rank
      = List.range' 1 (recommend catalog store u q simOf).length ∧
    (recommend catalog store u q simOf).length ≤ topK := by
  refine ⟨?_, ?_, ?_⟩
  · have hsorted : (List.insertionSort (rankLE q)
        (scoredCandidates catalog store u q simOf)).Pairwise (rankLE q) :=
      List.sorted_insertionSort (rankLE q) _
    have htake : (rankedCandidates catalog store u q simOf).Pairwise (rankLE q) :=
      List.Pairwise.sublist (List.take_sublist _ _) hsorted
    have hscore : (rankedCandidates catalog store u q simOf).Pairwise
        (fun a b => b.score ≤ a.score) := htake.imp (fun h => rankLE_score h)
    unfold recommend List.enum
    rw [List.pairwise_map]
    exact pairwise_enumFrom_snd hscore
  · unfold recommend List.enum
    rw [List.map_map, List.length_map]
    have h1 : (RankedEntry.rank ∘ fun p : Nat × Scored =>
        (⟨p.1 + 1, p.2.course, p.2.score⟩ : RankedEntry)) = fun p : Nat × Scored => p.1 + 1 :=
      rfl
    rw [h1, map_enumFrom_fst_succ]
    have h2 : ((rankedCandidates catalog store u q simOf).enumFrom 0).length
        = (rankedCandidates catalog store u q simOf).length := List.enum_length
    rw [h2]
  · unfold recommend
    rw [List.length_map]
    have h2 : ((rankedCandidates catalog store u q simOf).enum).length
        = (rankedCandidates catalog store u q simOf).length := List.enum_length
    rw [h2]
    unfold rankedCandidates
    rw [List.length_take]
    exact min_le_left _ _

lemma sorted_perm_unique {α : Type _} {r : α → α → Prop} :
    ∀ {l1 l2 : List α}, l1.Perm l2 → l1.Pairwise r → l2.Pairwise r →
      (∀ a b, a ∈ l1 → b ∈ l1 → r a b → r b a → a = b) → l1 = l2 := by
  intro l1
  induction l1 with
  | nil =>
    intro l2 hp _ _ _
    exact hp.nil_eq
  | cons a t ih =>
    intro l2 hp hs1 hs2 hanti
    cases l2 with
    | nil =>
      have := hp.length_eq
      simp at this
    | cons b t2 =>
      have hab : a = b := by
        have hamem : a ∈ b :: t2 := hp.mem_iff.1 (List.mem_cons_self a t)
        rcases List.mem_cons.1 hamem with h | h
        · exact h
        · have hbmem : b ∈ a :: t := hp.mem_iff.2 (List.mem_cons_self b t2)
          rcases List.mem_cons.1 hbmem with h3 | h3
          · exact h3.symm
          · have hr1 : r a b := (List.pairwise_cons.1 hs1).1 b h3
            have hr2 : r b a := (List.pairwise_cons.1 hs2).1 a h
            exact hanti a b (List.mem_cons_self a t)
              (List.mem_cons.2 (Or.inr h3)) hr1 hr2
      subst hab
      have hpt : t.Perm t2 := hp.cons_inv
      have ht := ih hpt (List.pairwise_cons.1 hs1).2 (List.pairwise_cons.1 hs2).2
        (fun x y hx hy => hanti x y (List.mem_cons.2 (Or.inr hx))
          (List.mem_cons.2 (Or.inr hy)))
      rw [ht]

lemma rankLE_antisymm_on_candidates {catalog : List Course}
    {store : List FeedbackRecord} {u : Option Nat} {q : PrefQuery}
    {simOf : Course → ℚ} {a b : Scored}
    (ha : a ∈ scoredCandidates catalog store u q simOf)
    (hb : b ∈ scoredCandidates catalog store u q simOf)
    (h1 : rankLE q a b) (h2 : rankLE q b a) : a = b :=
  eq_of_pairwise_key Scored.idx (scored_idx_pairwise catalog store u q simOf)
    ha hb (rankLE_antisymm_on h1 h2)

/-- Claim C8: the recommendation computation is deterministic; the
tie-break chain ends with the catalog insertion index, which is distinct
across candidates, so the sorted order is unique: any two sorted
arrangements of the scored candidates are equal, and each equals the one
the Ranker computes, so re-running the same request against unchanged
inputs yields the identical ordering. -/
theorem claim_C8_determinism (catalog : List Course) (store : List FeedbackRecord)
    (u : Option Nat) (q : PrefQuery) (simOf : Course → ℚ) (l1 l2 : List Scored)
    (h1 : l1.Perm (scoredCandidates catalog store u q simOf))
    (h2 : l2.Perm (scoredCandidates catalog store u q simOf))
    (hs1 : l1.Pairwise (rankLE q)) (hs2 : l2.Pairwise (rankLE q)) :
    l1 = l2 ∧
    l1 = List.insertionSort (rankLE q) (scoredCandidates catalog store u q simOf) := by
  have hanti : ∀ a b, a ∈ l1 → b ∈ l1 → rankLE q a b → rankLE q b a → a = b := by
    intro a b ha hb hr1 hr2
    exact rankLE_antisymm_on_candidates (h1.mem_iff.1 ha) (h1.mem_iff.1 hb) hr1 hr2
  constructor
  · exact sorted_perm_unique (h1.trans h2.symm) hs1 hs2 hanti
  · exact sorted_perm_unique
      (h1.trans (List.perm_insertionSort (rankLE q) _).symm) hs1
      (List.sorted_insertionSort (rankLE q) _) hanti

/-- Witness for claim C8: a one-course Web Dev catalog yields a
non-empty scored candidate list (relaxation drops the duration
constraint and admits the 10-week course), and the sorted arrangement of
that list is unique: the sorted candidate list coincides with the
Ranker's own sorted output. -/
theorem claim_C8_witness :
    scoredCandidates [webDevCourse] [] none webDevQuery (fun _ => 0) ≠ [] ∧
    scoredCandidates [webDevCourse] [] none webDevQuery (fun _ => 0)
      = List.insertionSort (rankLE webDevQuery)
          (scoredCandidates [webDevCourse] [] none webDevQuery (fun _ => 0)) := by
  have hfilter : filterWithRelaxation [webDevCourse] webDevQuery = [webDevCourse] := by
    decide
  have hsc : scoredCandidates [webDevCourse] [] none webDevQuery (fun _ => 0)
      = [⟨webDevCourse, 0,
          finalScore [webDevCourse] [] none webDevQuery (fun _ => 0) webDevCourse⟩] := by
    unfold scoredCandidates
    rw [hfilter]
    rfl
  have hsorted : (scoredCandidates [webDevCourse] [] none webDevQuery
      (fun _ => 0)).Pairwise (rankLE webDevQuery) := by
    rw [hsc]
    exact List.pairwise_singleton _ _
  refine ⟨?_, ?_⟩
  · rw [hsc]
    simp
  · exact (claim_C8_determinism [webDevCourse] [] none webDevQuery (fun _ => 0)
      (scoredCandidates [webDevCourse] [] none webDevQuery (fun _ => 0))
      (scoredCandidates [webDevCourse] [] none webDevQuery (fun _ => 0))
      (List.Perm.refl _) (List.Perm.refl _) hsorted hsorted).2

lemma feedback_no_history {catalog : List Course} {store : List FeedbackRecord}
    {u : Nat} {c : Course} (h : userRecords store u = []) :
    feedbackAdjustment catalog store u c = 0 := by
  unfold feedbackAdjustment exactRecord? categoryVotes
  rw [h]
  simp [clampFb, capFb, stepFb]

/-- Claim C7: a user whose only feedback is a downvote of a course in the
requested category gives every candidate of that category a strictly
lower final score than the same candidate would get with no feedback
history, all other inputs equal. -/
theorem claim_C7_downvote_lowers (catalog : List Course)
    (store : List FeedbackRecord) (u : Nat) (q : PrefQuery)
    (simOf : Course → ℚ) (c : Course) (c0 : Nat)
    (hs0 : 0 ≤ simOf c) (hs1 : simOf c ≤ 1)
    (hcat : c.category = q.category)
    (hrecs : userRecords store u = [(⟨u, c0, Rating.down⟩ : FeedbackRecord)])
    (hc0 : categoryOfCourseId catalog c0 = some q.category) :
    finalScore catalog store (some u) q simOf c
      < finalScore catalog [] (some u) q simOf c := by
  have hwS : wSim = 7/10 := rfl
  have hwP : wPref = 3/10 := rfl
  have hS0 : 0 ≤ simOf c * wSim := mul_nonneg hs0 (by norm_num [wSim])
  have hS1 : simOf c * wSim ≤ 7/10 := by
    rw [hwS]
    have := mul_le_mul_of_nonneg_right hs1 (by norm_num : (0:ℚ) ≤ 7/10)
    simpa using this
  have hcm : catMatch q c = 1 := by simp [catMatch, hcat]
  have hadj0 : adjustOf catalog [] (some u) c = 0 := by
    show feedbackAdjustment catalog [] u c = 0
    exact feedback_no_history rfl
  have hadj : adjustOf catalog store (some u) c = -(1/5) ∨
      adjustOf catalog store (some u) c = -(1/20) := by
    show feedbackAdjustment catalog store u c = -(1/5) ∨
      feedbackAdjustment catalog store u c = -(1/20)
    by_cases hcc : c0 = c.id
    · left
      have hx : exactRecord? store u c.id = some (⟨u, c0, Rating.down⟩ : FeedbackRecord) := by
        unfold exactRecord?
        rw [hrecs]
        simp [hcc]
      unfold feedbackAdjustment
      rw [hx]
      norm_num [ratingVal, capFb]
    · right
      have hx : exactRecord? store u c.id = none := by
        unfold exactRecord?
        rw [hrecs]
        simp [hcc]
      have hup : categoryVotes catalog store u c.category Rating.up = 0 := by
        unfold categoryVotes
        rw [hrecs]
        simp
      have hdn : categoryVotes catalog store u c.category Rating.down = 1 := by
        unfold categoryVotes
        rw [hrecs]
        simp [hcat, hc0]
      unfold feedbackAdjustment
      rw [hx, hup, hdn]
      have hv : stepFb * (((0 : Nat) : ℚ) - ((1 : Nat) : ℚ)) = -(1/20) := by
        norm_num [stepFb]
      rw [hv]
      unfold clampFb capFb
      rw [max_eq_right (by norm_num), min_eq_right (by norm_num)]
  unfold finalScore
  rw [hcm, hadj0, hwP]
  have hb0 : 0 ≤ simOf c * wSim + 1 * (3/10) + 0 := by linarith
  have hb1 : simOf c * wSim + 1 * (3/10) + 0 ≤ 1 := by linarith
  rcases hadj with h | h <;> rw [h] <;>
    rw [clampQ_eq_self (by linarith) (by linarith),
      clampQ_eq_self (by linarith) (by linarith)] <;> linarith

/-- Witness for claim C7: user 1 downvoted the Web Dev course; asking for
Web Dev again, that course scores strictly lower than with no history. -/
theorem claim_C7_witness :
    finalScore [webDevCourse] [(⟨1, 0, Rating.down⟩ : FeedbackRecord)] (some 1)
        webDevQuery (fun _ => 1/2) webDevCourse
      < finalScore [webDevCourse] [] (some 1) webDevQuery (fun _ => 1/2) webDevCourse :=
  claim_C7_downvote_lowers [webDevCourse] [(⟨1, 0, Rating.down⟩ : FeedbackRecord)]
    1 webDevQuery (fun _ => 1/2) webDevCourse 0
    (by norm_num) (by norm_num) rfl (by simp [userRecords])
    (by simp [categoryOfCourseId, webDevCourse, webDevQuery])

lemma dot_comm (a b : List ℝ) : dot a b = dot b a := by
  unfold dot
  rw [List.zipWith_comm_of_comm]
  intro x y
  exact mul_comm x y

lemma dot_self_nonneg (v : List ℝ) : 0 ≤ dot v v := by
  induction v with
  | nil => exact le_refl 0
  | cons x t ih =>
    have hc : dot (x :: t) (x :: t) = x * x + dot t t := rfl
    rw [hc]
    exact add_nonneg (mul_self_nonneg x) ih

lemma dot_self_zero_of_allzero {v : List ℝ} (h : ∀ x ∈ v, x = 0) : dot v v = 0 := by
  induction v with
  | nil => rfl
  | cons x t ih =>
    have hc : dot (x :: t) (x :: t) = x * x + dot t t := rfl
    rw [hc, h x (List.mem_cons_self _ _),
      ih (fun y hy => h y (List.mem_cons.2 (Or.inr hy)))]
    ring

lemma magnitude_eq_zero {v : List ℝ} : magnitude v = 0 ↔ dot v v = 0 := by
  unfold magnitude
  rw [Real.sqrt_eq_zero']
  exact ⟨fun h => le_antisymm h (dot_self_nonneg v), fun h => le_of_eq h⟩

lemma clampR_bounds (x : ℝ) : 0 ≤ clampR x ∧ clampR x ≤ 1 := by
  unfold clampR
  constructor
  · exact le_min (by norm_num) (le_max_left _ _)
  · exact min_le_left _ _

/-- Counterexample to claim C3 as stated: the zero vector has
non-negative entries and is the vector of the empty text, yet its
similarity with itself is 0, not 1, because the zero-magnitude rule takes
precedence. -/
theorem claim_C3_counterexample :
    (∀ x ∈ [(0:ℝ)], 0 ≤ x) ∧
    cosineSim [(0:ℝ)] [(0:ℝ)] = 0 ∧
    cosineSim [(0:ℝ)] [(0:ℝ)] ≠ 1 := by
  have hmag : magnitude [(0:ℝ)] = 0 := by
    rw [magnitude_eq_zero]
    exact dot_self_zero_of_allzero (by intro x hx; simpa using hx)
  have h0 : cosineSim [(0:ℝ)] [(0:ℝ)] = 0 := by
    unfold cosineSim
    rw [if_pos (Or.inl hmag)]
  refine ⟨?_, h0, ?_⟩
  · intro x hx
    have : x = 0 := by simpa using hx
    rw [this]
  · rw [h0]
    norm_num

/-- Claim C3 (amended): for every pair of vectors with non-negative
entries, cosine similarity is symmetric and lies in [0, 1]; the
similarity of a vector of nonzero magnitude with itself is 1; and a pair
with a zero-magnitude member gets similarity 0, never an undefined
value. -/
theorem claim_C3_amended (a b : List ℝ)
    (ha : ∀ x ∈ a, 0 ≤ x) (hb : ∀ x ∈ b, 0 ≤ x) :
    cosineSim a b = cosineSim b a ∧
    0 ≤ cosineSim a b ∧ cosineSim a b ≤ 1 ∧
    (magnitude a ≠ 0 → cosineSim a a = 1) ∧
    ((magnitude a = 0 ∨ magnitude b = 0) → cosineSim a b = 0) := by
  refine ⟨?_, ?_, ?_, ?_, ?_⟩
  · unfold cosineSim
    by_cases h : magnitude a = 0 ∨ magnitude b = 0
    · rw [if_pos h, if_pos h.symm]
    · rw [if_neg h, if_neg (fun hc => h hc.symm), dot_comm,
        mul_comm (magnitude b) (magnitude a)]
  · unfold cosineSim
    by_cases h : magnitude a = 0 ∨ magnitude b = 0
    · rw [if_pos h]
    · rw [if_neg h]
      exact (clampR_bounds _).1
  · unfold cosineSim
    by_cases h : magnitude a = 0 ∨ magnitude b = 0
    · rw [if_pos h]
      norm_num
    · rw [if_neg h]
      exact (clampR_bounds _).2
  · intro h
    unfold cosineSim
    rw [if_neg (by tauto : ¬(magnitude a = 0 ∨ magnitude a = 0))]
    have hms : magnitude a * magnitude a = dot a a :=
      Real.mul_self_sqrt (dot_self_nonneg a)
    have hd0 : dot a a ≠ 0 := fun hz => h (magnitude_eq_zero.2 hz)
    rw [hms, div_self hd0]
    unfold clampR
    norm_num
  · intro h
    unfold cosineSim
    rw [if_pos h]

/-- Witness for the amended claim C3: the one-entry vector of weight 1
has non-negative entries, nonzero magnitude, and self-similarity 1. -/
theorem claim_C3_witness :
    (∀ x ∈ [(1:ℝ)], 0 ≤ x) ∧ cosineSim [(1:ℝ)] [(1:ℝ)] = 1 := by
  have hn : ∀ x ∈ [(1:ℝ)], 0 ≤ x := by
    intro x hx
    have : x = 1 := by simpa using hx
    rw [this]
    norm_num
  have hdot : dot [(1:ℝ)] [(1:ℝ)] = 1 := by
    have hc : dot [(1:ℝ)] [(1:ℝ)] = 1 * 1 + dot ([] : List ℝ) [] := rfl
    rw [hc]
    norm_num [dot]
  have hmag : magnitude [(1:ℝ)] ≠ 0 := by
    rw [Ne, magnitude_eq_zero, hdot]
    norm_num
  exact ⟨hn, (claim_C3_amended [(1:ℝ)] [(1:ℝ)] hn hn).2.2.2.1 hmag⟩

/-- Claim C9: a query that is empty or made only of stop words encodes to
the zero query vector, and scoring proceeds with similarity 0 for every
candidate course instead of failing. -/
theorem claim_C9_degenerate_query (catalog : List Course) (q : String)
    (h : ∀ t ∈ rawWords q, t ∈ stopWords) :
    (∀ x ∈ queryVector catalog q, x = 0) ∧
    (∀ c ∈ catalog, cosineSim (queryVector catalog q) (courseVector catalog c) = 0) := by
  have htok : tokenize q = [] := by
    apply List.filter_eq_nil_iff.2
    intro t ht
    simp [h t ht]
  have hzero : ∀ x ∈ queryVector catalog q, x = 0 := by
    intro x hx
    unfold queryVector encode at hx
    rw [htok] at hx
    rcases List.mem_map.1 hx with ⟨t, _, hft⟩
    rw [← hft]
    simp
  refine ⟨hzero, ?_⟩
  intro c _
  have hmag : magnitude (queryVector catalog q) = 0 :=
    magnitude_eq_zero.2 (dot_self_zero_of_allzero hzero)
  unfold cosineSim
  rw [if_pos (Or.inl hmag)]

/-- Witness for claim C9: the query "the of" consists only of stop words,
and every course of a concrete catalog gets similarity 0 against it. -/
theorem claim_C9_witness :
    (∀ t ∈ rawWords "the of", t ∈ stopWords) ∧
    (∀ c ∈ [webDevCourse], cosineSim (queryVector [webDevCourse] "the of")
      (courseVector [webDevCourse] c) = 0) := by
  have h : ∀ t ∈ rawWords "the of", t ∈ stopWords := by decide
  exact ⟨h, (claim_C9_degenerate_query [webDevCourse] "the of" h).2⟩

end CourseRec
